import Mathlib

/-!
Verification of the core iterator/aggregate engine of the `lazy` sequence
library, against its natural-language specification.

The embedding is shallow: every iterator class of `iterators.ts` that a claim
touches is translated into an explicit Lean function or state machine, and the
aggregate functions of `aggregates.ts` become Lean functions over `List`.
JavaScript runtime values (which are dynamically typed, and whose truthiness
the join operators test) are modelled by the inductive type `JSVal`; JS `Map`
and `Set` objects are modelled as association lists and key lists, with
membership by decidable equality (insertion order preserved like the JS
originals). Thrown `Error(msg)` exceptions are modelled as `Except String`.
`arr.sort(cmp)` is modelled as a stable comparison sort (`List.insertionSort`)
driven by the same comparator, and `String.prototype.localeCompare` is
modelled as code-point lexicographic string comparison, which agrees with
locale collation on the lowercase-ASCII strings considered here.
-/

/-- A JavaScript runtime value, as far as the library observes one: the
join operators test truthiness of element values, the default order-by
comparator coerces keys to strings.  Numbers are modelled as integers. -/
inductive JSVal where
  | undef : JSVal
  | null : JSVal
  | bool : Bool → JSVal
  | num : Int → JSVal
  | str : String → JSVal
  deriving DecidableEq

/-- JavaScript ToBoolean on a `JSVal`: `undefined`, `null`, `false`, `0` and
the empty string are falsy, everything else is truthy. -/
def jsTruthy : JSVal → Bool
  | JSVal.undef => false
  | JSVal.null => false
  | JSVal.bool b => b
  | JSVal.num n => n != 0
  | JSVal.str s => s != ""

/-- JavaScript ToString on a `JSVal` (the coercion performed by
the default comparator via string concatenation with the empty string). -/
def jsToString : JSVal → String
  | JSVal.undef => "undefined"
  | JSVal.null => "null"
  | JSVal.bool b => if b then "true" else "false"
  | JSVal.num n => toString n
  | JSVal.str s => s

/-- Lookup in a JS `Map` modelled as an association list in insertion order:
`Map.prototype.get`, returning `none` where JS returns `undefined`. -/
def mapGet [DecidableEq κ] (k : κ) : List (κ × β) → Option β
  | [] => none
  | e :: m => if e.fst = k then some e.snd else mapGet k m

/-- Insertion into a JS `Set` modelled as a duplicate-free list in insertion
order: `Set.prototype.add` is a no-op on an element already present. -/
def setAdd [DecidableEq κ] (s : List κ) (k : κ) : List κ :=
  if k ∈ s then s else s ++ [k]

/-- The key set a set-operator constructor builds by fully draining its
secondary iterable: `for (const element of secondIterable) set.add(key)`. -/
def buildKeySet [DecidableEq κ] (keyFn : α → κ) (secondary : List α) : List κ :=
  secondary.foldl (fun s e => setAdd s (keyFn e)) []

/-- The `toMap` aggregate of `aggregates.ts` (as called by `LazyJoinIterator`
with no value function): folds the iterable into a `Map`, throwing
`Duplicate key found` the moment a key is seen a second time.  The `Map` is
the accumulator `m`, in insertion order. -/
def toMapL [DecidableEq κ] (keyFn : α → κ) : List α → List (κ × α) → Except String (List (κ × α))
  | [], m => Except.ok m
  | x :: xs, m =>
      if (mapGet (keyFn x) m).isSome then Except.error "Duplicate key found"
      else toMapL keyFn xs (m ++ [(keyFn x, x)])

/-- The pull loop of `LazyJoinIterator.next`: for each primary element, look
its key up in the secondary map; the element joins only if the looked-up
value is truthy (`if (secondElement)`), otherwise it is dropped — a lookup
returning JS `undefined` (here `none`) is falsy and also drops. -/
def joinYields [DecidableEq κ] (m : List (κ × JSVal)) (firstKeyFn : α → κ)
    (joinFn : α → JSVal → β) : List α → List β
  | [] => []
  | x :: xs =>
      match mapGet (firstKeyFn x) m with
      | some v =>
          if jsTruthy v then joinFn x v :: joinYields m firstKeyFn joinFn xs
          else joinYields m firstKeyFn joinFn xs
      | none => joinYields m firstKeyFn joinFn xs

/-- `LazyJoinIterator` driven to completion: the constructor materialises the
secondary into a map via `toMap` (which can throw `Duplicate key found`),
then the primary is drained through `joinYields`. -/
def lazyJoin [DecidableEq κ] (primary : List α) (secondary : List JSVal)
    (firstKeyFn : α → κ) (secondKeyFn : JSVal → κ) (joinFn : α → JSVal → β) :
    Except String (List β) :=
  (toMapL secondKeyFn secondary []).map (fun m => joinYields m firstKeyFn joinFn primary)

/-- Spec-side join, written from the claim's words: each primary element is
paired with the *first* secondary element whose key matches (and which is
truthy), and primary elements with no such match are dropped. -/
def joinSpecFirstMatch [DecidableEq κ] (primary : List α) (secondary : List JSVal)
    (firstKeyFn : α → κ) (secondKeyFn : JSVal → κ) (joinFn : α → JSVal → β) : List β :=
  primary.filterMap (fun x =>
    match secondary.find? (fun y => decide (secondKeyFn y = firstKeyFn x)) with
    | some y => if jsTruthy y then some (joinFn x y) else none
    | none => none)

-- Join lemmas.

theorem mapGet_append_none [DecidableEq κ] (k : κ) (m m' : List (κ × β))
    (h : mapGet k m = none) : mapGet k (m ++ m') = mapGet k m' := by
  induction m with
  | nil => simp
  | cons e m ih =>
      simp only [mapGet] at h ⊢
      by_cases he : e.fst = k
      · simp [he] at h
      · simpa [he] using ih (by simpa [he] using h)

theorem mapGet_assoc [DecidableEq κ] (sk : JSVal → κ) (k : κ) (s : List JSVal) :
    mapGet k (s.map (fun y => (sk y, y))) = s.find? (fun y => decide (sk y = k)) := by
  induction s with
  | nil => simp [mapGet]
  | cons y s ih =>
      by_cases h : sk y = k
      · simp [mapGet, List.find?, h]
      · simp [mapGet, List.find?, h, ih]

theorem toMapL_ok [DecidableEq κ] (keyFn : α → κ) (l : List α) :
    ∀ (m : List (κ × α)), (l.map keyFn).Nodup → (∀ x ∈ l, mapGet (keyFn x) m = none) →
    toMapL keyFn l m = Except.ok (m ++ l.map (fun x => (keyFn x, x))) := by
  induction l with
  | nil => intro m _ _; simp [toMapL]
  | cons x xs ih =>
      intro m hnd habs
      have hx : mapGet (keyFn x) m = none := habs x (by simp)
      have hnd' := hnd
      simp only [List.map_cons, List.nodup_cons] at hnd'
      rw [toMapL, hx]
      simp only [Option.isSome_none, Bool.false_eq_true, if_false]
      rw [ih (m ++ [(keyFn x, x)]) hnd'.2]
      · simp
      · intro y hy
        rw [mapGet_append_none _ _ _ (habs y (by simp [hy]))]
        have hne : keyFn x ≠ keyFn y := by
          intro hcontra
          exact hnd'.1 (hcontra ▸ List.mem_map_of_mem keyFn hy)
        simp [mapGet, hne]

theorem joinYields_eq_filterMap [DecidableEq κ] (m : List (κ × JSVal)) (fk : α → κ)
    (jf : α → JSVal → β) (p : List α) :
    joinYields m fk jf p = p.filterMap (fun x =>
      match mapGet (fk x) m with
      | some v => if jsTruthy v then some (jf x v) else none
      | none => none) := by
  induction p with
  | nil => simp [joinYields]
  | cons x xs ih =>
      rw [joinYields]
      cases hv : mapGet (fk x) m with
      | none => simp [hv, ih]
      | some v =>
          by_cases ht : jsTruthy v
          · simp [hv, ht, ih]
          · simp [hv, ht, ih]

/-- C1 (amended): provided the secondary's keys are pairwise distinct, driving
`join` yields, in primary order, one result per primary element whose key
looks up a truthy secondary element, pairing it with the first (here unique)
matching secondary element, and drops every other primary element.  (A
secondary with two equal keys instead makes the join fail; see the
counterexample.) -/
theorem join_first_match_of_distinct_keys [DecidableEq κ] (primary : List α)
    (secondary : List JSVal) (fk : α → κ) (sk : JSVal → κ) (jf : α → JSVal → β)
    (hnd : (secondary.map sk).Nodup) :
    lazyJoin primary secondary fk sk jf =
      Except.ok (joinSpecFirstMatch primary secondary fk sk jf) := by
  rw [lazyJoin, toMapL_ok sk secondary [] hnd (by intro x _; simp [mapGet])]
  simp only [List.nil_append, Except.map]
  rw [joinYields_eq_filterMap]
  rw [joinSpecFirstMatch]
  refine congrArg Except.ok (congrArg (fun f => List.filterMap f primary) (funext fun x => ?_))
  rw [mapGet_assoc]

/-- C1 (counterexample): a secondary source containing two elements with the
same key makes the join fail with the `Duplicate key found` error instead of
producing its results — contradicting the claim that such a secondary "does
not prevent the join from producing its results". -/
theorem join_duplicate_secondary_key_errors :
    lazyJoin [JSVal.num 1] [JSVal.num 1, JSVal.num 1]
      (fun v => match v with | JSVal.num n => n | _ => 0)
      (fun v => match v with | JSVal.num n => n | _ => 0)
      (fun a b => (a, b)) = Except.error "Duplicate key found" := by
  rfl

/-- C1 (witness): the amended theorem applied at a concrete input with
distinct secondary keys; the unmatched primary element 3 is dropped. -/
theorem join_first_match_witness :
    lazyJoin [JSVal.num 1, JSVal.num 2, JSVal.num 3] [JSVal.num 1, JSVal.num 2]
      (fun v => match v with | JSVal.num n => n | _ => 0)
      (fun v => match v with | JSVal.num n => n | _ => 0)
      (fun a b => (a, b)) =
      Except.ok [(JSVal.num 1, JSVal.num 1), (JSVal.num 2, JSVal.num 2)] :=
  (join_first_match_of_distinct_keys _ _ _ _ _ (by decide)).trans (by rfl)

/-- C8: the `join` match test is JS truthiness of the looked-up secondary
element, not key membership: a primary element whose key is stored in the
secondary map but maps to a falsy value contributes nothing to the output,
wherever it occurs in the primary. -/
theorem join_drops_falsy_secondary [DecidableEq κ] (m : List (κ × JSVal))
    (fk : α → κ) (jf : α → JSVal → β) (x : α) (v : JSVal) (pre post : List α)
    (hget : mapGet (fk x) m = some v) (hfalsy : jsTruthy v = false) :
    joinYields m fk jf (pre ++ x :: post) = joinYields m fk jf (pre ++ post) := by
  induction pre with
  | nil => simp [joinYields, hget, hfalsy]
  | cons y ys ih =>
      simp only [List.cons_append, joinYields]
      cases mapGet (fk y) m with
      | none => exact ih
      | some w =>
          by_cases ht : jsTruthy w
          · simp [ht, ih]
          · simp [ht, ih]

/-- C8 (witness): the key 0 is present in the secondary map, but its stored
element is the falsy number 0, so the matching primary element is dropped and
the join of a singleton primary is empty. -/
theorem join_drops_falsy_secondary_witness :
    joinYields [((0 : Int), JSVal.num 0)] (fun _ => (0 : Int))
      (fun a _ => a) ([] ++ JSVal.num 7 :: []) = [] :=
  (join_drops_falsy_secondary [((0 : Int), JSVal.num 0)] (fun _ => (0 : Int))
    (fun a _ => a) (JSVal.num 7) (JSVal.num 0) [] [] (by decide) (by decide)).trans rfl

-- Set-operator models (except / intersect).

/-- The pull loop of `LazyExceptIterator.next`: a primary element is yielded
iff its key is absent from the exclusion set, and the key of every yielded
element is itself added to the set. -/
def exceptLoop [DecidableEq κ] (keyFn : α → κ) : List α → List κ → List α
  | [], _ => []
  | x :: xs, set =>
      if keyFn x ∈ set then exceptLoop keyFn xs set
      else x :: exceptLoop keyFn xs (setAdd set (keyFn x))

/-- `LazyExceptIterator` driven to completion: the constructor drains the
whole secondary into the exclusion key set, then the primary is pulled
through `exceptLoop`. -/
def lazyExcept [DecidableEq κ] (primary secondary : List α) (keyFn : α → κ) : List α :=
  exceptLoop keyFn primary (buildKeySet keyFn secondary)

/-- The pull loop of `LazyIntersectIterator.next`: a primary element is
yielded iff its key is in the set, and on a yield the key is deleted from
the set, so later primary elements with the same key are dropped. -/
def intersectLoop [DecidableEq κ] (keyFn : α → κ) : List α → List κ → List α
  | [], _ => []
  | x :: xs, set =>
      if keyFn x ∈ set then x :: intersectLoop keyFn xs (set.erase (keyFn x))
      else intersectLoop keyFn xs set

/-- `LazyIntersectIterator` driven to completion: the constructor drains the
whole secondary into the key set, then the primary is pulled through
`intersectLoop`. -/
def lazyIntersect [DecidableEq κ] (primary secondary : List α) (keyFn : α → κ) : List α :=
  intersectLoop keyFn primary (buildKeySet keyFn secondary)

/-- Spec-side intersect loop, written from the claim's words: a primary
element is yielded iff its key occurs among the secondary's keys and no
earlier primary element with the same key has been yielded. -/
def intersectSpecLoop [DecidableEq κ] (keyFn : α → κ) (allKeys : List κ) :
    List α → List κ → List α
  | [], _ => []
  | x :: xs, seen =>
      if keyFn x ∈ allKeys ∧ keyFn x ∉ seen then
        x :: intersectSpecLoop keyFn allKeys xs (seen ++ [keyFn x])
      else intersectSpecLoop keyFn allKeys xs seen

/-- Spec-side intersect: first primary occurrence of each key that occurs in
the secondary. -/
def intersectSpec [DecidableEq κ] (primary secondary : List α) (keyFn : α → κ) : List α :=
  intersectSpecLoop keyFn (secondary.map keyFn) primary []

-- Set lemmas.

theorem setAdd_nodup [DecidableEq κ] (s : List κ) (k : κ) (h : s.Nodup) :
    (setAdd s k).Nodup := by
  rw [setAdd]
  by_cases hk : k ∈ s
  · simpa [hk] using h
  · simp [hk, List.nodup_append, h]

theorem mem_setAdd [DecidableEq κ] (s : List κ) (k q : κ) :
    q ∈ setAdd s k ↔ q ∈ s ∨ q = k := by
  rw [setAdd]
  by_cases hk : k ∈ s
  · simp only [hk, if_true]
    constructor
    · exact Or.inl
    · rintro (h | h)
      · exact h
      · exact h ▸ hk
  · simp [hk]

theorem buildKeySet_nodup [DecidableEq κ] (keyFn : α → κ) (l : List α) :
    (buildKeySet keyFn l).Nodup := by
  rw [buildKeySet]
  suffices h : ∀ (s : List κ), s.Nodup → (l.foldl (fun s e => setAdd s (keyFn e)) s).Nodup by
    exact h [] List.nodup_nil
  induction l with
  | nil => intro s hs; exact hs
  | cons x xs ih => intro s hs; exact ih (setAdd s (keyFn x)) (setAdd_nodup s (keyFn x) hs)

theorem mem_buildKeySet [DecidableEq κ] (keyFn : α → κ) (l : List α) (q : κ) :
    q ∈ buildKeySet keyFn l ↔ q ∈ l.map keyFn := by
  rw [buildKeySet]
  suffices h : ∀ (s : List κ),
      q ∈ l.foldl (fun s e => setAdd s (keyFn e)) s ↔ q ∈ s ∨ q ∈ l.map keyFn by
    simpa using h []
  induction l with
  | nil => intro s; simp
  | cons x xs ih =>
      intro s
      rw [List.foldl_cons, ih (setAdd s (keyFn x)), mem_setAdd]
      simp only [List.map_cons, List.mem_cons]
      tauto

theorem exceptLoop_keys_nodup_disjoint [DecidableEq κ] (keyFn : α → κ) (p : List α) :
    ∀ (set : List κ), ((exceptLoop keyFn p set).map keyFn).Nodup ∧
      ∀ q ∈ (exceptLoop keyFn p set).map keyFn, q ∉ set := by
  induction p with
  | nil => intro set; simp [exceptLoop]
  | cons x xs ih =>
      intro set
      rw [exceptLoop]
      by_cases hx : keyFn x ∈ set
      · simpa [hx] using ih set
      · have ih' := ih (setAdd set (keyFn x))
        simp only [hx, if_false, List.map_cons, List.nodup_cons, List.mem_cons]
        refine ⟨⟨?_, ih'.1⟩, ?_⟩
        · intro hmem
          exact (ih'.2 _ hmem) ((mem_setAdd set (keyFn x) (keyFn x)).mpr (Or.inr rfl))
        · rintro q (rfl | hq)
          · exact hx
          · intro hqset
            exact (ih'.2 q hq) ((mem_setAdd set (keyFn x) q).mpr (Or.inl hqset))

theorem intersectLoop_keys_subset [DecidableEq κ] (keyFn : α → κ) (p : List α) :
    ∀ (set : List κ), ∀ q ∈ (intersectLoop keyFn p set).map keyFn, q ∈ set := by
  induction p with
  | nil => intro set q hq; simp [intersectLoop] at hq
  | cons x xs ih =>
      intro set q hq
      rw [intersectLoop] at hq
      by_cases hx : keyFn x ∈ set
      · simp only [hx, if_true, List.map_cons, List.mem_cons] at hq
        rcases hq with rfl | hq
        · exact hx
        · exact (set.erase_sublist (keyFn x)).mem (ih _ q hq)
      · simp only [hx, if_false] at hq
        exact ih set q hq

theorem intersectLoop_keys_nodup [DecidableEq κ] (keyFn : α → κ) (p : List α) :
    ∀ (set : List κ), set.Nodup → ((intersectLoop keyFn p set).map keyFn).Nodup := by
  induction p with
  | nil => intro set _; simp [intersectLoop]
  | cons x xs ih =>
      intro set hset
      rw [intersectLoop]
      by_cases hx : keyFn x ∈ set
      · simp only [hx, if_true, List.map_cons, List.nodup_cons]
        refine ⟨?_, ih _ (hset.erase (keyFn x))⟩
        intro hmem
        exact hset.not_mem_erase (intersectLoop_keys_subset keyFn xs _ _ hmem)
      · simpa [hx] using ih set hset

theorem intersectLoop_eq_specLoop [DecidableEq κ] (keyFn : α → κ) (set0 allKeys : List κ)
    (hnd : set0.Nodup) (hiff : ∀ q, q ∈ set0 ↔ q ∈ allKeys) (p : List α) :
    ∀ (seen : List κ), intersectLoop keyFn p (set0.diff seen) =
      intersectSpecLoop keyFn allKeys p seen := by
  induction p with
  | nil => intro seen; rfl
  | cons x xs ih =>
      intro seen
      rw [intersectLoop, intersectSpecLoop]
      have hcond : keyFn x ∈ set0.diff seen ↔ keyFn x ∈ allKeys ∧ keyFn x ∉ seen := by
        rw [hnd.mem_diff_iff, hiff]
      by_cases hx : keyFn x ∈ set0.diff seen
      · have hx' := hcond.mp hx
        have herase : (set0.diff seen).erase (keyFn x) = set0.diff (seen ++ [keyFn x]) := by
          rw [List.diff_append, List.diff_cons, List.diff_nil]
        rw [if_pos hx, if_pos hx', herase, ih (seen ++ [keyFn x])]
      · have hx' : ¬(keyFn x ∈ allKeys ∧ keyFn x ∉ seen) := fun h => hx (hcond.mpr h)
        simp only [hx, if_false, if_neg hx']
        exact ih seen

/-- C5: `intersect` drains the secondary completely into a key set before any
primary element is pulled (the set the constructor builds holds exactly the
secondary's keys, and the loop consumes only the primary), and it yields, per
distinct key, at most one element — exactly the first primary element whose
key is in the set, the key being removed on that match so that all later
primary elements with the same key are dropped. -/
theorem intersect_first_occurrence_set_semantics [DecidableEq κ]
    (primary secondary : List α) (keyFn : α → κ) :
    (∀ q, q ∈ buildKeySet keyFn secondary ↔ q ∈ secondary.map keyFn) ∧
    lazyIntersect primary secondary keyFn = intersectSpec primary secondary keyFn ∧
    ((lazyIntersect primary secondary keyFn).map keyFn).Nodup := by
  refine ⟨mem_buildKeySet keyFn secondary, ?_, ?_⟩
  · rw [lazyIntersect, intersectSpec]
    have h := intersectLoop_eq_specLoop keyFn (buildKeySet keyFn secondary)
      (secondary.map keyFn) (buildKeySet_nodup keyFn secondary)
      (mem_buildKeySet keyFn secondary) primary []
    rwa [List.diff_nil] at h
  · exact intersectLoop_keys_nodup keyFn primary _ (buildKeySet_nodup keyFn secondary)

/-- C9: the output of `except` contains at most one element per distinct key:
each yielded element's key joins the exclusion set, so a later primary
element with an already-yielded key is dropped even when that key never
occurred in the secondary sequence. -/
theorem except_at_most_one_per_key [DecidableEq κ] (primary secondary : List α)
    (keyFn : α → κ) : ((lazyExcept primary secondary keyFn).map keyFn).Nodup :=
  (exceptLoop_keys_nodup_disjoint keyFn primary (buildKeySet keyFn secondary)).1

-- Windowing: takeLast (the Queue class is a FIFO queue whose compaction is a
-- memory optimisation only; it is modelled as a plain list with `enqueue`
-- appending at the back and `dequeue` removing the front).

/-- One iteration of the `LazyTakeLastIterator` constructor loop: enqueue the
element, first dequeuing the oldest one once the queue already holds `count`
elements. -/
def takeLastStep (count : Int) (q : List α) (x : α) : List α :=
  if (q.length : Int) < count then q ++ [x] else q.drop 1 ++ [x]

/-- The `LazyTakeLastIterator` constructor: for a positive count it drains the
entire source through `takeLastStep` before the first element can be emitted;
for `count ≤ 0` the source is not iterated and the queue stays empty.
`next()` then dequeues the retained window front-first, so the emitted
sequence is exactly this queue. -/
def lazyTakeLast (src : List α) (count : Int) : List α :=
  if 0 < count then src.foldl (takeLastStep count) [] else []

theorem takeLast_fold_drop (n : Int) (hn : 0 < n) (l : List α) :
    l.foldl (takeLastStep n) [] = l.drop (l.length - n.toNat) := by
  induction l using List.reverseRecOn with
  | nil => simp
  | append_singleton l x ih =>
      rw [List.foldl_append, List.foldl_cons, List.foldl_nil, ih, takeLastStep]
      have hlen : (l.drop (l.length - n.toNat)).length = l.length - (l.length - n.toNat) :=
        List.length_drop _ _
      by_cases hL : l.length < n.toNat
      · rw [if_pos ?_]
        · have h0 : l.length - n.toNat = 0 := by omega
          have h1 : (l ++ [x]).length - n.toNat = 0 := by simp; omega
          rw [h0, h1]
          simp
        · rw [hlen]
          have h0 : l.length - n.toNat = 0 := by omega
          rw [h0]
          omega
      · rw [if_neg ?_]
        · rw [List.drop_drop, List.length_append, List.length_singleton]
          have hle : l.length - n.toNat + 1 ≤ l.length := by omega
          rw [List.drop_append_of_le_length (by omega)]
          have : l.length + 1 - n.toNat = l.length - n.toNat + 1 := by omega
          rw [this]
        · rw [hlen]
          omega

/-- C6: `takeLast(n)` drains the whole source into a FIFO window during
construction (nothing is emitted before that loop finishes), the window
retains exactly the most recent `min(max(n,0), L)` elements, and the iterator
then dequeues them in original source order; in particular
`from([1,2,3]).takeLast(2).toArray()` is `[2,3]`. -/
theorem takeLast_retains_last_window (src : List α) (n : Int) :
    lazyTakeLast src n = src.drop (src.length - (max n 0).toNat) ∧
    (lazyTakeLast src n).length = min (max n 0).toNat src.length ∧
    lazyTakeLast [1, 2, 3] (2 : Int) = ([2, 3] : List Int) := by
  have hmain : lazyTakeLast src n = src.drop (src.length - (max n 0).toNat) := by
    rw [lazyTakeLast]
    by_cases hn : 0 < n
    · rw [if_pos hn, takeLast_fold_drop n hn src]
      have : (max n 0).toNat = n.toNat := by omega
      rw [this]
    · rw [if_neg hn]
      have : (max n 0).toNat = 0 := by omega
      rw [this]
      rw [Nat.sub_zero, List.drop_length]
  refine ⟨hmain, ?_, by rfl⟩
  rw [hmain, List.length_drop]
  omega

-- Reversal.

/-- The `toArray` aggregate: pushes each element of the iterable onto an
array. -/
def toArrayAgg (l : List α) : List α :=
  l.foldl (fun arr x => arr ++ [x]) []

theorem toArrayAgg_eq (l : List α) : toArrayAgg l = l := by
  rw [toArrayAgg]
  suffices h : ∀ acc : List α, l.foldl (fun arr x => arr ++ [x]) acc = acc ++ l by
    simpa using h []
  induction l with
  | nil => intro acc; simp
  | cons x xs ih => intro acc; simp [ih]

/-- The emission loop of `LazyReverseIterator`: `_index` starts at
`arr.length - 1` and walks down to 0, yielding `arr[_index]` at each step;
`revFrom arr i` is the sequence of yields remaining when `_index = i - 1`. -/
def revFrom (arr : List α) : Nat → List α
  | 0 => []
  | i + 1 =>
      match arr.get? i with
      | some v => v :: revFrom arr i
      | none => revFrom arr i

/-- `LazyReverseIterator` driven to completion: the constructor fully
materialises the source via `toArray`, and iteration is a reverse-index
traversal of that buffer. -/
def lazyReverse (l : List α) : List α :=
  revFrom (toArrayAgg l) (toArrayAgg l).length

theorem revFrom_eq_reverse_take (arr : List α) (n : Nat) (hn : n ≤ arr.length) :
    revFrom arr n = (arr.take n).reverse := by
  induction n with
  | zero => simp [revFrom]
  | succ i ih =>
      have hi : i < arr.length := by omega
      rw [revFrom, List.get?_eq_get hi]
      show arr.get ⟨i, hi⟩ :: revFrom arr i = (arr.take (i + 1)).reverse
      rw [ih (by omega), List.take_succ, List.reverse_append,
        List.getElem?_eq_getElem hi]
      simp

theorem lazyReverse_eq_reverse (l : List α) : lazyReverse l = l.reverse := by
  rw [lazyReverse, toArrayAgg_eq, revFrom_eq_reverse_take l l.length (le_refl _),
    List.take_length]

/-- C7: `reverse` is a reverse-index traversal of the fully materialised
buffer, so it emits the source reversed and applying it twice round-trips to
the original element order. -/
theorem reverse_reverse_roundtrip (l : List α) :
    lazyReverse l = l.reverse ∧ lazyReverse (lazyReverse l) = l := by
  refine ⟨lazyReverse_eq_reverse l, ?_⟩
  rw [lazyReverse_eq_reverse, lazyReverse_eq_reverse, List.reverse_reverse]

-- Terminal aggregates: the general traversal path of `aggregates.ts` and the
-- array fast-path overrides of `LazyIterator` (taken when the source was
-- built by `from(array)` directly over a concrete array).  Indices are JS
-- numbers, modelled as `Int`.

/-- The `count` aggregate (no predicate): iterate, incrementing a counter. -/
def countLoop : List α → Nat → Nat
  | [], c => c
  | _ :: xs, c => countLoop xs (c + 1)

/-- General-path `count()`. -/
def countAgg (l : List α) : Nat := countLoop l 0

/-- Fast-path `count()` on a concrete array: `array.length`. -/
def countFast (l : List α) : Nat := l.length

/-- The `getElementAt` helper: walk the iterable comparing a running cursor
index with the requested one. -/
def getElementAtLoop : List α → Int → Int → Option α
  | [], _, _ => none
  | x :: xs, idx, c => if c = idx then some x else getElementAtLoop xs idx (c + 1)

/-- General-path element lookup starting the cursor at 0. -/
def getElementAt (l : List α) (idx : Int) : Option α := getElementAtLoop l idx 0

/-- General-path `elementAt`: a negative index throws
`Index cannot be negative`; a cursor miss throws `No element found at
index N`. -/
def elementAtAgg (l : List α) (idx : Int) : Except String α :=
  if idx < 0 then Except.error "Index cannot be negative"
  else
    match getElementAt l idx with
    | some v => Except.ok v
    | none => Except.error ("No element found at index " ++ toString idx)

/-- Fast-path `elementAt` on a concrete array: a bounds check, then direct
indexing; any out-of-bounds index (negative included) throws
`Index out of array bounds`. -/
def elementAtFast (l : List α) (idx : Int) : Except String α :=
  if h : 0 ≤ idx ∧ idx < (l.length : Int) then Except.ok (l.get ⟨idx.toNat, by omega⟩)
  else Except.error "Index out of array bounds"

/-- General-path `elementAtOrDefault`: no negativity check — the cursor walk
simply misses and the default is returned. -/
def elementAtOrDefaultAgg (l : List α) (idx : Int) (d : α) : α :=
  match getElementAt l idx with
  | some v => v
  | none => d

/-- Fast-path `elementAtOrDefault` on a concrete array. -/
def elementAtOrDefaultFast (l : List α) (idx : Int) (d : α) : α :=
  if h : 0 ≤ idx ∧ idx < (l.length : Int) then l.get ⟨idx.toNat, by omega⟩ else d

/-- The `getFirst` helper without a predicate: the first element, if any. -/
def getFirstAgg : List α → Option α
  | [] => none
  | x :: _ => some x

/-- General-path `first()`: throws `Empty iterable` on an empty source. -/
def firstAgg (l : List α) : Except String α :=
  match getFirstAgg l with
  | some v => Except.ok v
  | none => Except.error "Empty iterable"

/-- Fast-path `first()` on a concrete array. -/
def firstFast (l : List α) : Except String α :=
  if h : 0 < l.length then Except.ok (l.get ⟨0, h⟩) else Except.error "Empty iterable"

/-- General-path `firstOrDefault()`. -/
def firstOrDefaultAgg (l : List α) (d : α) : α :=
  match getFirstAgg l with
  | some v => v
  | none => d

/-- Fast-path `firstOrDefault()` on a concrete array. -/
def firstOrDefaultFast (l : List α) (d : α) : α :=
  if h : 0 < l.length then l.get ⟨0, h⟩ else d

/-- The `getLast` helper without a predicate: remember the latest element
seen while draining the source. -/
def getLastLoop : List α → Option α → Option α
  | [], acc => acc
  | x :: xs, _ => getLastLoop xs (some x)

/-- General-path `last()`: throws `Empty iterable` on an empty source. -/
def lastAgg (l : List α) : Except String α :=
  match getLastLoop l none with
  | some v => Except.ok v
  | none => Except.error "Empty iterable"

/-- Fast-path `last()` on a concrete array: `array[array.length - 1]`. -/
def lastFast (l : List α) : Except String α :=
  if h : 0 < l.length then Except.ok (l.get ⟨l.length - 1, by omega⟩)
  else Except.error "Empty iterable"

/-- General-path `lastOrDefault()`. -/
def lastOrDefaultAgg (l : List α) (d : α) : α :=
  match getLastLoop l none with
  | some v => v
  | none => d

/-- Fast-path `lastOrDefault()` on a concrete array. -/
def lastOrDefaultFast (l : List α) (d : α) : α :=
  if h : 0 < l.length then l.get ⟨l.length - 1, by omega⟩ else d

-- Aggregate lemmas.

theorem countLoop_eq (l : List α) : ∀ (c : Nat), countLoop l c = c + l.length := by
  induction l with
  | nil => intro c; simp [countLoop]
  | cons x xs ih => intro c; rw [countLoop, ih]; simp; omega

theorem getElementAtLoop_eq (l : List α) :
    ∀ (idx c : Int), getElementAtLoop l idx c =
      if 0 ≤ idx - c then l.get? (idx - c).toNat else none := by
  induction l with
  | nil =>
      intro idx c
      rw [getElementAtLoop]
      split <;> simp
  | cons x xs ih =>
      intro idx c
      rw [getElementAtLoop]
      by_cases hc : c = idx
      · have h0 : idx - c = 0 := by omega
        simp [hc, h0]
      · rw [if_neg hc, ih idx (c + 1)]
        by_cases h2 : 0 ≤ idx - c
        · have hpos : 0 < idx - c := by omega
          have h1 : 0 ≤ idx - (c + 1) := by omega
          have h3 : (idx - c).toNat = (idx - (c + 1)).toNat + 1 := by omega
          rw [if_pos h1, if_pos h2, h3]
          rfl
        · have h1 : ¬0 ≤ idx - (c + 1) := by omega
          rw [if_neg h1, if_neg h2]

theorem getElementAt_eq (l : List α) (idx : Int) :
    getElementAt l idx = if 0 ≤ idx then l.get? idx.toNat else none := by
  rw [getElementAt, getElementAtLoop_eq]
  simp

theorem getLastLoop_ne_nil (x : α) (xs : List α) :
    ∀ (acc : Option α), getLastLoop (x :: xs) acc = (x :: xs).getLast? := by
  induction xs generalizing x with
  | nil => intro acc; rfl
  | cons y ys ih =>
      intro acc
      rw [getLastLoop, ih y (some x), List.getLast?_cons_cons]

/-- C2 (amended): over a source built by `from(array)` directly on a concrete
array, the fast-path overrides of `count`, `first(-OrDefault)`,
`last(-OrDefault)` and `elementAtOrDefault` (without predicates) agree with
the general traversal path exactly, errors included; the fast-path
`elementAt` agrees on every successful result and fails exactly when the
general path fails, but its error message differs (see the
counterexample). -/
theorem fast_path_matches_general (l : List α) (idx : Int) (d : α) :
    countFast l = countAgg l ∧
    firstFast l = firstAgg l ∧
    firstOrDefaultFast l d = firstOrDefaultAgg l d ∧
    lastFast l = lastAgg l ∧
    lastOrDefaultFast l d = lastOrDefaultAgg l d ∧
    elementAtOrDefaultFast l idx d = elementAtOrDefaultAgg l idx d ∧
    (elementAtFast l idx).isOk = (elementAtAgg l idx).isOk ∧
    (∀ v : α, elementAtFast l idx = Except.ok v ↔ elementAtAgg l idx = Except.ok v) := by
  have hlast : getLastLoop l none = l.get? (l.length - 1) := by
    cases l with
    | nil => rfl
    | cons x xs =>
        rw [getLastLoop_ne_nil x xs none, List.getLast?_eq_get?]
  have hget : ∀ (h : 0 ≤ idx ∧ idx < (l.length : Int)),
      getElementAt l idx = some (l.get ⟨idx.toNat, by omega⟩) := by
    intro h
    rw [getElementAt_eq, if_pos h.1, List.get?_eq_get (by omega)]
  refine ⟨?_, ?_, ?_, ?_, ?_, ?_, ?_, ?_⟩
  · rw [countFast, countAgg, countLoop_eq]
    omega
  · cases l with
    | nil => rfl
    | cons x xs => simp [firstFast, firstAgg, getFirstAgg]
  · cases l with
    | nil => rfl
    | cons x xs => simp [firstOrDefaultFast, firstOrDefaultAgg, getFirstAgg]
  · rw [lastFast, lastAgg, hlast]
    by_cases h : 0 < l.length
    · rw [dif_pos h, List.get?_eq_get (by omega)]
    · rw [dif_neg h]
      have : l = [] := by
        cases l with
        | nil => rfl
        | cons x xs => simp at h
      rw [this]
      rfl
  · rw [lastOrDefaultFast, lastOrDefaultAgg, hlast]
    by_cases h : 0 < l.length
    · rw [dif_pos h, List.get?_eq_get (by omega)]
    · rw [dif_neg h]
      have : l = [] := by
        cases l with
        | nil => rfl
        | cons x xs => simp at h
      rw [this]
      rfl
  · rw [elementAtOrDefaultFast, elementAtOrDefaultAgg]
    by_cases h : 0 ≤ idx ∧ idx < (l.length : Int)
    · rw [dif_pos h, hget h]
    · rw [dif_neg h, getElementAt_eq]
      by_cases h0 : 0 ≤ idx
      · have hlen : ¬idx.toNat < l.length := by omega
        rw [if_pos h0, List.get?_eq_none.mpr (by omega)]
      · rw [if_neg h0]
  · rw [elementAtFast, elementAtAgg]
    by_cases h : 0 ≤ idx ∧ idx < (l.length : Int)
    · rw [dif_pos h, if_neg (by omega), hget h]
    · rw [dif_neg h]
      by_cases h0 : idx < 0
      · rw [if_pos h0]
        rfl
      · rw [if_neg h0, getElementAt_eq, if_pos (by omega),
          List.get?_eq_none.mpr (by omega)]
        rfl
  · intro v
    rw [elementAtFast, elementAtAgg]
    by_cases h : 0 ≤ idx ∧ idx < (l.length : Int)
    · rw [dif_pos h, if_neg (by omega), hget h]
    · rw [dif_neg h]
      by_cases h0 : idx < 0
      · rw [if_pos h0]
        simp
      · rw [if_neg h0, getElementAt_eq, if_pos (by omega),
          List.get?_eq_none.mpr (by omega)]
        simp

/-- C2 (counterexample): the fast path and the general path do not raise
identical errors: on `from([5]).elementAt(-1)` the array fast path throws
`Index out of array bounds` while the general path throws
`Index cannot be negative`; on `from([]).elementAt(0)` the messages are
`Index out of array bounds` versus `No element found at index 0`. -/
theorem fast_path_error_message_differs :
    elementAtFast ([5] : List Int) (-1) = Except.error "Index out of array bounds" ∧
    elementAtAgg ([5] : List Int) (-1) = Except.error "Index cannot be negative" ∧
    elementAtFast ([] : List Int) 0 = Except.error "Index out of array bounds" ∧
    elementAtAgg ([] : List Int) 0 = Except.error "No element found at index 0" :=
  ⟨rfl, rfl, rfl, rfl⟩

-- Source generators and windowing construction: repeat and batchIn.

/-- The `LazyRepeat` constructor: throws `Count cannot be < 0` on a negative
count, otherwise stores the element and count unchanged. -/
def lazyRepeat (element : α) (count : Int) : Except String (α × Int) :=
  if count < 0 then Except.error "Count cannot be < 0"
  else Except.ok (element, count)

/-- The batch-gathering loop of `LazyBatchInIterator`, driven to completion:
elements accumulate into `batch` until its length equals `batchSize` exactly
(the only emission test — there is no argument validation anywhere in
`batchIn`); on source exhaustion a non-empty undersized batch is emitted only
when `includeIncomplete` is set.  Returns the batches in emission order. -/
def batchInRun (batchSize : Int) (includeIncomplete : Bool) :
    List α → List α → List (List α)
  | [], batch => if batch.length > 0 ∧ includeIncomplete = true then [batch] else []
  | x :: xs, batch =>
      if ((batch ++ [x]).length : Int) = batchSize then
        (batch ++ [x]) :: batchInRun batchSize includeIncomplete xs []
      else batchInRun batchSize includeIncomplete xs (batch ++ [x])

/-- `batchIn(batchSize, includeIncomplete)` driven to completion; neither the
`LazyBatchIn` wrapper nor the iterator constructor inspects `batchSize`. -/
def lazyBatchIn (src : List α) (batchSize : Int) (includeIncomplete : Bool) :
    List (List α) :=
  batchInRun batchSize includeIncomplete src []

theorem batchInRun_neg (bs : Int) (hbs : bs < 0) (incl : Bool) (l : List α) :
    ∀ (batch : List α), batchInRun bs incl l batch =
      if (batch ++ l).length > 0 ∧ incl = true then [batch ++ l] else [] := by
  induction l with
  | nil => intro batch; simp [batchInRun]
  | cons x xs ih =>
      intro batch
      rw [batchInRun, if_neg (by simp; omega), ih (batch ++ [x])]
      simp

/-- C3 (amended): `repeat(value, count)` fails with the invalid-argument
error `Count cannot be < 0` for every negative count and succeeds at
construction for every non-negative count; `batchIn` performs no argument
validation at all: a negative `batchSize` raises no error at construction or
during iteration — the whole source accumulates into a single batch, emitted
exactly when `includeIncomplete` is set and the source is non-empty. -/
theorem repeat_validates_batchIn_does_not (e : α) (count : Int) (l : List β)
    (bs : Int) (incl : Bool) :
    (count < 0 → lazyRepeat e count = Except.error "Count cannot be < 0") ∧
    (0 ≤ count → lazyRepeat e count = Except.ok (e, count)) ∧
    (bs < 0 → lazyBatchIn l bs incl =
      if incl = true ∧ 0 < l.length then [l] else []) := by
  refine ⟨?_, ?_, ?_⟩
  · intro h; rw [lazyRepeat, if_pos h]
  · intro h; rw [lazyRepeat, if_neg (by omega)]
  · intro h
    rw [lazyBatchIn, batchInRun_neg bs h incl l []]
    simp only [List.nil_append]
    by_cases hincl : incl = true
    · by_cases hlen : 0 < l.length
      · rw [if_pos ⟨hlen, hincl⟩, if_pos ⟨hincl, hlen⟩]
      · rw [if_neg (by tauto), if_neg (by tauto)]
    · rw [if_neg (by tauto), if_neg (by tauto)]

/-- C3 (counterexample): `batchIn` with a negative batch size raises no
invalid-argument error: driving `from([1,2]).batchIn(-1)` completes normally
and emits the whole source as a single batch. -/
theorem batchIn_negative_size_no_error :
    lazyBatchIn ([1, 2] : List Int) (-1) true = [[1, 2]] := by
  decide

/-- C3 (witness): the amended theorem applied at concrete inputs: a negative
repeat count throws, a non-negative one constructs, and a negative batch size
batches the whole source without error. -/
theorem repeat_validates_batchIn_does_not_witness :
    lazyRepeat (7 : Int) (-1) = Except.error "Count cannot be < 0" ∧
    lazyRepeat (7 : Int) 2 = Except.ok (7, 2) ∧
    lazyBatchIn ([1, 2] : List Int) (-3) true = [[1, 2]] :=
  ⟨(repeat_validates_batchIn_does_not (7 : Int) (-1) ([1, 2] : List Int) (-3) true).1
      (by decide),
   (repeat_validates_batchIn_does_not (7 : Int) 2 ([1, 2] : List Int) (-3) true).2.1
      (by decide),
   ((repeat_validates_batchIn_does_not (7 : Int) 2 ([1, 2] : List Int) (-3) true).2.2
      (by decide)).trans (by decide)⟩

-- Ordering: the default comparator and lazyOrderBy.

/-- Lexicographic three-way comparison of character lists, the model of
`localeCompare` on the coerced key texts (code-point collation). -/
def lexCmp : List Char → List Char → Int
  | [], [] => 0
  | [], _ :: _ => -1
  | _ :: _, [] => 1
  | a :: as, b :: bs =>
      if a < b then -1 else if b < a then 1 else lexCmp as bs

/-- `localeCompare` on two strings: lexicographic comparison of their
characters, returning a negative, zero or positive number. -/
def strCmp (a b : String) : Int :=
  lexCmp a.data b.data

/-- The `defaultComparer` of `iterators.ts`: coerce both keys to text with
string concatenation and compare the texts. -/
def defaultComparer (a b : JSVal) : Int :=
  strCmp (jsToString a) (jsToString b)

/-- `comparerFactory`: swaps the two elements when sorting is reversed, then
applies the comparison function (the `defaultComparer` when none is given)
to the extracted keys. -/
def comparerFactory (keyFn : α → JSVal) (reverse : Bool)
    (compareFn : Option (JSVal → JSVal → Int)) : α → α → Int :=
  fun a b =>
    if reverse then (compareFn.getD defaultComparer) (keyFn b) (keyFn a)
    else (compareFn.getD defaultComparer) (keyFn a) (keyFn b)

/-- `lazyOrderBy`: materialise the source with `toArray` and sort it with the
comparator built by `comparerFactory`; `arr.sort(cmp)` is modelled as a
stable comparison sort keeping `a` before `b` whenever `cmp(a,b) ≤ 0`. -/
def lazyOrderBy (keyFn : α → JSVal) (compareFn : Option (JSVal → JSVal → Int))
    (decending : Bool) (l : List α) : List α :=
  List.insertionSort (fun a b => comparerFactory keyFn decending compareFn a b ≤ 0)
    (toArrayAgg l)

/-- Spec-side order, written from the claim's words: text `a` is at or before
text `b` in lexical order, i.e. `b` is not lexicographically smaller. -/
def textLe (a b : String) : Prop :=
  ¬List.Lex (fun c d : Char => c < d) b.data a.data

theorem lexCmp_nil_nonpos (b : List Char) : lexCmp [] b ≤ 0 := by
  cases b <;> simp [lexCmp]

theorem lexCmp_cons_le (x y : Char) (as bs : List Char)
    (h : lexCmp (x :: as) (y :: bs) ≤ 0) :
    x < y ∨ (x = y ∧ lexCmp as bs ≤ 0) := by
  rw [lexCmp] at h
  by_cases hxy : x < y
  · exact Or.inl hxy
  · by_cases hyx : y < x
    · rw [if_neg hxy, if_pos hyx] at h
      omega
    · refine Or.inr ⟨le_antisymm (not_lt.mp hyx) (not_lt.mp hxy), ?_⟩
      rwa [if_neg hxy, if_neg hyx] at h

theorem lexCmp_cons_le_of (x y : Char) (as bs : List Char)
    (h : x < y ∨ (x = y ∧ lexCmp as bs ≤ 0)) :
    lexCmp (x :: as) (y :: bs) ≤ 0 := by
  rw [lexCmp]
  rcases h with h | ⟨rfl, h⟩
  · rw [if_pos h]
    omega
  · rw [if_neg (lt_irrefl x), if_neg (lt_irrefl x)]
    exact h

theorem lexCmp_trans (a : List Char) :
    ∀ (b c : List Char), lexCmp a b ≤ 0 → lexCmp b c ≤ 0 → lexCmp a c ≤ 0 := by
  induction a with
  | nil => intro b c _ _; exact lexCmp_nil_nonpos c
  | cons x as ih =>
      intro b c h1 h2
      cases b with
      | nil => rw [lexCmp] at h1; omega
      | cons y bs =>
          cases c with
          | nil => rw [lexCmp] at h2; omega
          | cons z cs =>
              rcases lexCmp_cons_le x y as bs h1 with hxy | ⟨rfl, h1'⟩ <;>
                rcases lexCmp_cons_le _ z bs cs h2 with hyz | ⟨rfl, h2'⟩
              · exact lexCmp_cons_le_of _ _ _ _ (Or.inl (lt_trans hxy hyz))
              · exact lexCmp_cons_le_of _ _ _ _ (Or.inl hxy)
              · exact lexCmp_cons_le_of _ _ _ _ (Or.inl hyz)
              · exact lexCmp_cons_le_of _ _ _ _ (Or.inr ⟨rfl, ih bs cs h1' h2'⟩)

theorem lexCmp_total (a : List Char) :
    ∀ (b : List Char), lexCmp a b ≤ 0 ∨ lexCmp b a ≤ 0 := by
  induction a with
  | nil => intro b; exact Or.inl (lexCmp_nil_nonpos b)
  | cons x as ih =>
      intro b
      cases b with
      | nil => exact Or.inr (lexCmp_nil_nonpos (x :: as))
      | cons y bs =>
          rcases lt_trichotomy x y with h | h | h
          · exact Or.inl (lexCmp_cons_le_of _ _ _ _ (Or.inl h))
          · rcases ih bs with h' | h'
            · exact Or.inl (lexCmp_cons_le_of _ _ _ _ (Or.inr ⟨h, h'⟩))
            · exact Or.inr (lexCmp_cons_le_of _ _ _ _ (Or.inr ⟨h.symm, h'⟩))
          · exact Or.inr (lexCmp_cons_le_of _ _ _ _ (Or.inl h))

theorem lex_cons_inv {x y : Char} {as bs : List Char}
    (h : List.Lex (fun c d : Char => c < d) (y :: bs) (x :: as)) :
    y < x ∨ (y = x ∧ List.Lex (fun c d : Char => c < d) bs as) := by
  cases h with
  | cons h => exact Or.inr ⟨rfl, h⟩
  | rel h => exact Or.inl h

theorem lexCmp_nonpos_iff (a : List Char) :
    ∀ (b : List Char), lexCmp a b ≤ 0 ↔ ¬List.Lex (fun c d : Char => c < d) b a := by
  induction a with
  | nil =>
      intro b
      exact iff_of_true (lexCmp_nil_nonpos b) (List.Lex.not_nil_right _ b)
  | cons x as ih =>
      intro b
      cases b with
      | nil =>
          refine iff_of_false ?_ ?_
          · rw [lexCmp]; omega
          · intro h; exact h List.Lex.nil
      | cons y bs =>
          constructor
          · intro h hlex
            rcases lexCmp_cons_le x y as bs h with hxy | ⟨rfl, h'⟩ <;>
              rcases lex_cons_inv hlex with hyx | ⟨heq, hlex'⟩
            · exact absurd hxy (asymm hyx)
            · exact absurd (heq ▸ hxy) (lt_irrefl y)
            · exact absurd hyx (lt_irrefl x)
            · exact (ih bs).mp h' hlex'
          · intro h
            rcases lt_trichotomy x y with hxy | rfl | hyx
            · exact lexCmp_cons_le_of _ _ _ _ (Or.inl hxy)
            · refine lexCmp_cons_le_of _ _ _ _ (Or.inr ⟨rfl, (ih bs).mpr ?_⟩)
              intro hlex
              exact h (List.Lex.cons hlex)
            · exact absurd (List.Lex.rel hyx) h

theorem comparer_asc_iff (keyFn : α → JSVal) (a b : α) :
    comparerFactory keyFn false none a b ≤ 0 ↔
      textLe (jsToString (keyFn a)) (jsToString (keyFn b)) := by
  rw [comparerFactory]
  simp only [Bool.false_eq_true, if_false, Option.getD_none]
  exact lexCmp_nonpos_iff _ _

theorem comparer_desc_iff (keyFn : α → JSVal) (a b : α) :
    comparerFactory keyFn true none a b ≤ 0 ↔
      textLe (jsToString (keyFn b)) (jsToString (keyFn a)) := by
  rw [comparerFactory]
  simp only [if_true]
  exact lexCmp_nonpos_iff _ _

/-- C4 (amended): the default comparator used by `orderBy` and
`orderByDecending` coerces both keys to text and compares them lexically; a
missing/undefined key is therefore coerced to the literal text `undefined`
and ordered like any other text — ascending output is sorted by the coerced
key texts, descending output is reverse-sorted by them, and an undefined key
sorts after exactly those present keys whose text precedes `undefined`, not
after all present keys (see the counterexample). -/
theorem orderBy_default_comparator_lexical (l : List α) (keyFn : α → JSVal) :
    (∀ a b : JSVal, defaultComparer a b ≤ 0 ↔ textLe (jsToString a) (jsToString b)) ∧
    (∀ k : JSVal, defaultComparer JSVal.undef k ≤ 0 ↔ textLe "undefined" (jsToString k)) ∧
    List.Perm (lazyOrderBy keyFn none false l) l ∧
    List.Pairwise (fun a b => textLe (jsToString (keyFn a)) (jsToString (keyFn b)))
      (lazyOrderBy keyFn none false l) ∧
    List.Pairwise (fun a b => textLe (jsToString (keyFn b)) (jsToString (keyFn a)))
      (lazyOrderBy keyFn none true l) := by
  refine ⟨?_, ?_, ?_, ?_, ?_⟩
  · intro a b
    exact lexCmp_nonpos_iff _ _
  · intro k
    exact lexCmp_nonpos_iff _ _
  · rw [lazyOrderBy, toArrayAgg_eq]
    exact List.perm_insertionSort _ l
  · rw [lazyOrderBy]
    haveI : IsTotal α (fun a b => comparerFactory keyFn false none a b ≤ 0) :=
      ⟨fun a b => lexCmp_total _ _⟩
    haveI : IsTrans α (fun a b => comparerFactory keyFn false none a b ≤ 0) :=
      ⟨fun a b c hab hbc => lexCmp_trans _ _ _ hab hbc⟩
    exact (List.sorted_insertionSort _ _).imp
      (fun hab => (comparer_asc_iff keyFn _ _).mp hab)
  · rw [lazyOrderBy]
    haveI : IsTotal α (fun a b => comparerFactory keyFn true none a b ≤ 0) :=
      ⟨fun a b => lexCmp_total _ _⟩
    haveI : IsTrans α (fun a b => comparerFactory keyFn true none a b ≤ 0) :=
      ⟨fun a b c hab hbc => lexCmp_trans _ _ _ hbc hab⟩
    exact (List.sorted_insertionSort _ _).imp
      (fun hab => (comparer_desc_iff keyFn _ _).mp hab)

/-- C4 (counterexample): sorting ascending with the default comparator, the
element whose key is `undefined` comes out *first*, before the element whose
key is the present text `z` — `undefined` is coerced to the text `undefined`,
which precedes `z` lexically — contradicting the claim that a
missing/undefined key sorts after all present keys regardless of the sort
direction. -/
theorem undefined_key_sorts_lexically_not_last :
    lazyOrderBy
      (fun v : JSVal => if v = JSVal.num 0 then JSVal.undef else JSVal.str "z")
      none false [JSVal.num 1, JSVal.num 0] = [JSVal.num 0, JSVal.num 1] := by
  decide

-- The iteration contract: the done helper of iterators.ts.

/-- The observable result of one `next()` call: the `done` flag, the value
(JS `undefined` is `none`), and the cursor state after the call. -/
structure StepRes (σ : Type u) (α : Type v) where
  done : Bool
  value : Option α
  state : σ

/-- A cursor of the iterator module: its private state plus the flag
recording whether `done(iterator)` has already replaced its `next` method by
`doneNext` (which always reports done).  Every class's `next()` body either
produces a value with a successor state or signals exhaustion — every
exhaustion return site in the module is `return done(this)`. -/
structure Wrapped (σ : Type u) where
  finished : Bool
  inner : σ

/-- One `next()` call on a cursor: if `next` has been replaced, report done
and leave the cursor untouched (`doneNext`); otherwise run the class body —
on exhaustion, install the replacement and report done (`done(this)`), else
hand out the value and the successor state. -/
def wrapNext (body : σ → Option (α × σ)) (s : Wrapped σ) : StepRes (Wrapped σ) α :=
  if s.finished then ⟨true, none, s⟩
  else
    match body s.inner with
    | none => ⟨true, none, ⟨true, s.inner⟩⟩
    | some (v, s') => ⟨false, some v, ⟨false, s'⟩⟩

/-- The cursor state after `k` further `next()` calls. -/
def wrapIter (body : σ → Option (α × σ)) : Nat → Wrapped σ → Wrapped σ
  | 0, s => s
  | k + 1, s => wrapIter body k (wrapNext body s).state

/-- The `next()` body of `LazyRangeIterator` with end bound `endv`: state is
`(index, direction)`; report exhaustion when the index passes the bound,
otherwise yield the index and advance it by the direction. -/
def rangeBody (endv : Int) (st : Int × Int) : Option (Int × (Int × Int)) :=
  if (if st.2 > 0 then st.1 ≥ endv else st.1 ≤ endv) then none
  else some (st.1, (st.1 + st.2, st.2))

/-- The `LazyRangeIterator` constructor: index starts at `start`, direction
is the sign of `endv - start`. -/
def mkRange (start endv : Int) : Wrapped (Int × Int) :=
  ⟨false, (start, if endv < start then -1 else 1)⟩

/-- The `next()` body of a cursor over a concrete list (the base iterator a
`LazyTakeIterator` pulls from). -/
def listBody : List α → Option (α × List α)
  | [] => none
  | x :: xs => some (x, xs)

/-- The `next()` body of `LazyTakeIterator` over a list-backed upstream
cursor: state is the upstream cursor plus the `taken` counter; report
exhaustion once `taken` reaches `count` or the upstream reports done,
otherwise forward the upstream value. -/
def takeBody (count : Int) (st : Wrapped (List α) × Int) :
    Option (α × (Wrapped (List α) × Int)) :=
  if (st.2 : Int) ≥ count then none
  else
    match (wrapNext listBody st.1).value, (wrapNext listBody st.1).state with
    | some v, it => some (v, (it, st.2 + 1))
    | none, _ => none

theorem wrapNext_finished (body : σ → Option (α × σ)) (s : Wrapped σ)
    (h : s.finished = true) :
    (wrapNext body s).done = true ∧ (wrapNext body s).state = s := by
  rw [wrapNext, if_pos h]
  exact ⟨rfl, rfl⟩

theorem wrapNext_done_finished (body : σ → Option (α × σ)) (s : Wrapped σ)
    (h : (wrapNext body s).done = true) :
    (wrapNext body s).state.finished = true := by
  by_cases hf : s.finished = true
  · rw [wrapNext, if_pos hf]
    exact hf
  · rw [wrapNext, if_neg hf] at h ⊢
    cases hb : body s.inner with
    | none => rfl
    | some p =>
        obtain ⟨v, s'⟩ := p
        rw [hb] at h
        simp at h

theorem wrapIter_finished_done (body : σ → Option (α × σ)) :
    ∀ (k : Nat) (t : Wrapped σ), t.finished = true →
      (wrapNext body (wrapIter body k t)).done = true := by
  intro k
  induction k with
  | zero =>
      intro t ht
      rw [wrapIter]
      exact (wrapNext_finished body t ht).1
  | succ k ih =>
      intro t ht
      rw [wrapIter]
      refine ih _ ?_
      rw [(wrapNext_finished body t ht).2]
      exact ht

/-- C10: every cursor of the iterator module is permanently exhausted once
finished: whatever the class body `body` and starting cursor `s`, if a
`next()` call reports done, the `done` helper has replaced `next` by
`doneNext`, and the calls that follow — after any number `k` of further
calls on that same cursor — all report done as well. -/
theorem cursor_permanently_done (body : σ → Option (α × σ)) (s : Wrapped σ)
    (h : (wrapNext body s).done = true) :
    ∀ k : Nat, (wrapNext body (wrapIter body k (wrapNext body s).state)).done = true :=
  fun k => wrapIter_finished_done body k _ (wrapNext_done_finished body s h)

/-- C10 (witness): the cursor of `range(0, 0)` reports done on its first
pull, and still reports done five calls later. -/
theorem cursor_permanently_done_witness :
    (wrapNext (rangeBody 0) (mkRange 0 0)).done = true ∧
    (wrapNext (rangeBody 0)
      (wrapIter (rangeBody 0) 5 (wrapNext (rangeBody 0) (mkRange 0 0)).state)).done = true :=
  ⟨by decide, cursor_permanently_done (rangeBody 0) (mkRange 0 0) (by decide) 5⟩
